import Mathlib

/-!
Verification of the hierarchical memory store (`src/models.py`, `src/memory_store.py`).

The store is a tree of `Memory` nodes.  Each node carries scalar metadata
(`MemoryData`) and an ordered list of children.  Operations address nodes by a
`Position`: a list of `description` keys walked from the root, resolving each
segment to the first child whose `description` matches (`Memory.find_child`).

Time (`datetime.now()`) and fresh identifiers (`uuid4`) are passed explicitly
as parameters (`now : Nat`, `id : String`).  File persistence and the global
lock are outside the shallow embedding; every operation returns its structured
result together with the resulting tree.
-/

/-- Scalar fields of a memory node (`Memory` in `src/models.py`, minus `children`). -/
structure MemoryData where
  id : String
  description : String
  content : Option String
  tags : List String
  author : String
  created_at : Nat
  updated_at : Option Nat
  access_count : Nat
  last_accessed : Nat
deriving DecidableEq, Repr

/-- A memory node: scalar data plus the ordered list of children. -/
inductive Memory where
  | mk (data : MemoryData) (children : List Memory)
deriving Repr

def Memory.data : Memory → MemoryData
  | .mk d _ => d

def Memory.children : Memory → List Memory
  | .mk _ cs => cs

def Memory.id (m : Memory) : String := m.data.id

def Memory.description (m : Memory) : String := m.data.description

def Memory.content (m : Memory) : Option String := m.data.content

def Memory.tags (m : Memory) : List String := m.data.tags

def Memory.author (m : Memory) : String := m.data.author

def Memory.created_at (m : Memory) : Nat := m.data.created_at

def Memory.updated_at (m : Memory) : Option Nat := m.data.updated_at

def Memory.access_count (m : Memory) : Nat := m.data.access_count

def Memory.last_accessed (m : Memory) : Nat := m.data.last_accessed

/-- Replace the children list, keeping the scalar data. -/
def Memory.setChildren : Memory → List Memory → Memory
  | .mk d _, cs => .mk d cs

/-- Replace the scalar data, keeping the children. -/
def Memory.setData : Memory → MemoryData → Memory
  | .mk _ cs, d => .mk d cs

/-- Structural equality on forests of memories.  Pydantic `BaseModel.__eq__`
compares models field by field, so `==`/`!=` between `Memory` objects in the
source is structural equality; this boolean function models it. -/
def beqF : List Memory → List Memory → Bool
  | [], [] => true
  | .mk d gcs :: cs, .mk d2 gcs2 :: cs2 => decide (d = d2) && beqF gcs gcs2 && beqF cs cs2
  | [], _ :: _ => false
  | _ :: _, [] => false

/-- Structural equality of two memory nodes (pydantic model equality). -/
def beqM (a b : Memory) : Bool := beqF [a] [b]

/-- `Memory.__init__` defaults: fresh id, the given fields, `created_at` and
`last_accessed` both the construction instant, `updated_at` unset,
`access_count` 0 and no children. -/
def Memory.new (id : String) (description : String) (content : Option String)
    (tags : List String) (author : String) (now : Nat) : Memory :=
  .mk { id := id, description := description, content := content, tags := tags,
        author := author, created_at := now, updated_at := none,
        access_count := 0, last_accessed := now } []

/-- `MemoryStore._init_root`: the fresh root node. -/
def freshRoot (id : String) (now : Nat) : Memory :=
  Memory.new id "root" (some "Root of all memories") [] "system" now

/-- First child of the list whose `description` equals `d`
(the loop inside `Memory.find_child`). -/
def findFirst : List Memory → String → Option Memory
  | [], _ => none
  | c :: cs, d => if c.description = d then some c else findFirst cs d

/-- `Memory.find_child`: first direct child matching the description. -/
def Memory.find_child (m : Memory) (description : String) : Option Memory :=
  findFirst m.children description

/-- `Memory.update_access`: bump the access counter and stamp `last_accessed`. -/
def Memory.update_access (now : Nat) (m : Memory) : Memory :=
  .mk { m.data with access_count := m.data.access_count + 1, last_accessed := now } m.children

/-- A position: the sequence of description keys from the root. -/
def Position := List String
deriving DecidableEq, Repr

/-- `MemoryStore._navigate_to_position`: walk the tree from `m`, resolving each
segment with `find_child`; `none` as soon as a segment fails. -/
def navigate (m : Memory) : List String → Option Memory
  | [] => some m
  | d :: rest =>
    match findFirst m.children d with
    | none => none
    | some c => navigate c rest

/-- Replace the first `d`-matching element of the list by its image under `g`;
the list is unchanged when no element matches. -/
def updateFirst (cs : List Memory) (d : String) (g : Memory → Memory) : List Memory :=
  match cs with
  | [] => []
  | c :: cs => if c.description = d then g c :: cs else c :: updateFirst cs d g

/-- Apply `f` to the node resolved by the position (the functional rendering of
the source's in-place mutation of the navigated node); the tree is unchanged
when the position does not resolve. -/
def updateAt (m : Memory) (pos : List String) (f : Memory → Memory) : Memory :=
  match pos with
  | [] => f m
  | d :: rest => m.setChildren (updateFirst m.children d (fun c => updateAt c rest f))

/-- Remove the first `d`-matching element of the list (the `pop(i)` in
`remove_memory`); the list is unchanged when no element matches. -/
def removeFirst (cs : List Memory) (d : String) : List Memory :=
  match cs with
  | [] => []
  | c :: cs => if c.description = d then cs else c :: removeFirst cs d

/-- `MemoryStore._count_all_children` restated on forests: total number of
nodes in the forest. -/
def countForest : List Memory → Nat
  | [] => 0
  | .mk _ gcs :: cs => (1 + countForest gcs) + countForest cs

/-- `MemoryStore._count_all_children`: all descendants of `m`, excluding `m`. -/
def count_all_children (m : Memory) : Nat := countForest m.children

/-- The error outcomes of the store operations, one constructor per `error`
string produced in `src/memory_store.py`. -/
inductive StoreError where
  /-- add: f-string "Position ... not found" -/
  | positionNotFound (position : List String)
  /-- read/list/edit: f-string "Memory at position ... not found" -/
  | memoryNotFound (position : List String)
  /-- add: f-string "Memory ... already exists at this position" -/
  | duplicateAtPosition (description : String)
  /-- edit: f-string "Memory ... already exists at this level" -/
  | duplicateAtLevel (description : String)
  /-- edit: "Cannot edit root memory" -/
  | cannotEditRoot
  /-- remove: "Cannot remove root memory" -/
  | cannotRemoveRoot
  /-- remove: f-string "Parent position ... not found" -/
  | parentNotFound (position : List String)
  /-- remove: f-string "Memory ... not found at position ..." -/
  | childNotFound (description : String) (parentPosition : List String)
deriving DecidableEq, Repr

/-- Success payload of `add_memory`. -/
structure AddOk where
  id : String
  description : String
  position : List String
  created_at : Nat
deriving DecidableEq, Repr

/-- Success payload of `read_memory`. -/
structure ReadOk where
  id : String
  description : String
  content : Option String
  tags : List String
  author : String
  created_at : Nat
  updated_at : Option Nat
  access_count : Nat
  last_accessed : Nat
  has_children : Bool
deriving DecidableEq, Repr

/-- One entry of `list_children`'s result. -/
structure ChildEntry where
  description : String
  content : Option String
  children_count : Nat
  tags : List String
deriving DecidableEq, Repr

/-- Success payload of `list_children`. -/
structure ListOk where
  position : List String
  children : List ChildEntry
deriving DecidableEq, Repr

/-- Success payload of `edit_memory`. -/
structure EditOk where
  id : String
  description : String
  updated_at : Nat
deriving DecidableEq, Repr

/-- Success payload of `remove_memory`. -/
structure RemoveOk where
  removed : String
  children_removed : Nat
deriving DecidableEq, Repr

/-- `MemoryStore.add_memory`: resolve the parent, reject a duplicate key,
otherwise append a fresh node to the parent's children. -/
def add_memory (root : Memory) (position : List String) (description : String)
    (content : Option String) (tags : List String) (author : String)
    (id : String) (now : Nat) : Except StoreError AddOk × Memory :=
  match navigate root position with
  | none => (.error (.positionNotFound position), root)
  | some parent =>
    match parent.find_child description with
    | some _ => (.error (.duplicateAtPosition description), root)
    | none =>
      (.ok { id := id, description := description,
             position := position ++ [description], created_at := now },
       updateAt root position (fun p =>
         p.setChildren (p.children ++ [Memory.new id description content tags author now])))

/-- `MemoryStore.read_memory`: resolve the node, update its access metadata,
return its attributes (after the update) plus `has_children`. -/
def read_memory (root : Memory) (position : List String) (now : Nat) :
    Except StoreError ReadOk × Memory :=
  match navigate root position with
  | none => (.error (.memoryNotFound position), root)
  | some memory =>
    (.ok { id := (memory.update_access now).id,
           description := (memory.update_access now).description,
           content := (memory.update_access now).content,
           tags := (memory.update_access now).tags,
           author := (memory.update_access now).author,
           created_at := (memory.update_access now).created_at,
           updated_at := (memory.update_access now).updated_at,
           access_count := (memory.update_access now).access_count,
           last_accessed := (memory.update_access now).last_accessed,
           has_children := decide (0 < (memory.update_access now).children.length) },
     updateAt root position (Memory.update_access now))

/-- `MemoryStore.list_children`: resolve the node and report each direct child
in order; no mutation. -/
def list_children (root : Memory) (position : List String) : Except StoreError ListOk :=
  match navigate root position with
  | none => .error (.memoryNotFound position)
  | some memory =>
    .ok { position := position,
          children := memory.children.map (fun c =>
            { description := c.description, content := c.content,
              children_count := c.children.length, tags := c.tags }) }

/-- The field updates a successful edit applies to the resolved node: each
provided field is overwritten, and `updated_at` is stamped unconditionally. -/
def applyEdit (description content : Option String) (tags : Option (List String))
    (now : Nat) (m : Memory) : Memory :=
  let d1 := match description with
    | none => m.data
    | some d => { m.data with description := d }
  let d2 := match content with
    | none => d1
    | some c => { d1 with content := some c }
  let d3 := match tags with
    | none => d2
    | some t => { d2 with tags := t }
  .mk { d3 with updated_at := some now } m.children

/-- The rename conflict scan of `edit_memory`: some sibling of the edited node
(other than the node itself, by pydantic structural inequality) already holds
the new description. -/
def renameConflict (root memory : Memory) (position : List String) (d : String) : Bool :=
  match navigate root position.dropLast with
  | none => false
  | some parent => parent.children.any (fun s => !beqM s memory && (s.description == d))

/-- `MemoryStore.edit_memory`: resolve the node, refuse the root, check a
rename against the other siblings, apply the provided fields and stamp
`updated_at`. -/
def edit_memory (root : Memory) (position : List String)
    (description content : Option String) (tags : Option (List String))
    (now : Nat) : Except StoreError EditOk × Memory :=
  match navigate root position with
  | none => (.error (.memoryNotFound position), root)
  | some memory =>
    if beqM memory root then (.error .cannotEditRoot, root)
    else
      match description with
      | some d =>
        if renameConflict root memory position d then
          (.error (.duplicateAtLevel d), root)
        else
          (.ok { id := memory.id, description := d, updated_at := now },
           updateAt root position (applyEdit description content tags now))
      | none =>
        (.ok { id := memory.id, description := memory.description, updated_at := now },
         updateAt root position (applyEdit description content tags now))

/-- `MemoryStore.remove_memory`: refuse the empty position, resolve the parent,
pop the first child matching the last segment, report its key and its
descendant count. -/
def remove_memory (root : Memory) (position : List String) :
    Except StoreError RemoveOk × Memory :=
  if position.isEmpty then (.error .cannotRemoveRoot, root)
  else
    match navigate root position.dropLast with
    | none => (.error (.parentNotFound position.dropLast), root)
    | some parent =>
      match findFirst parent.children (position.getLastD "") with
      | none => (.error (.childNotFound (position.getLastD "") position.dropLast), root)
      | some removed =>
        (.ok { removed := removed.description,
               children_removed := count_all_children removed },
         updateAt root position.dropLast (fun p =>
           p.setChildren (removeFirst p.children (position.getLastD ""))))

/-- Decimal digits of an instant, little-endian, empty at 0
(helper for the textual timestamp encoding). -/
def natDigits (t : Nat) : List Nat :=
  if h : t = 0 then [] else t % 10 :: natDigits (t / 10)
decreasing_by exact Nat.div_lt_self (Nat.pos_of_ne_zero h) (by omega)

/-- Value of a little-endian digit list. -/
def ofDigits : List Nat → Nat
  | [] => 0
  | d :: ds => d + 10 * ofDigits ds

/-- Model of `datetime.isoformat`: an injective, never-empty textual rendering
of the instant, modelled as its (nonempty) decimal digit string. -/
def isoformat (t : Nat) : List Nat :=
  if t = 0 then [0] else natDigits t

/-- Model of `datetime.fromisoformat`: parse the digit string back. -/
def fromisoformat (s : List Nat) : Nat := ofDigits s

/-- A JSON-record field that can be absent, an explicit null, or a value.
Used for the `updated_at` entry of the persisted record. -/
inductive JField (α : Type) where
  | absent
  | null
  | val (a : α)
deriving DecidableEq, Repr

/-- The persisted record shape produced by `Memory.to_dict` and consumed by
`Memory.from_dict`: scalar fields, textual timestamps, a three-state
`updated_at` entry, and nested children records. -/
inductive MemoryDict where
  | mk (id : String) (description : String) (content : Option String)
      (tags : List String) (author : String) (created_at : List Nat)
      (updated_at : JField (List Nat)) (access_count : Nat)
      (last_accessed : List Nat) (children : List MemoryDict)
deriving Repr

def MemoryDict.id : MemoryDict → String
  | .mk i _ _ _ _ _ _ _ _ _ => i

def MemoryDict.description : MemoryDict → String
  | .mk _ d _ _ _ _ _ _ _ _ => d

def MemoryDict.updated_at : MemoryDict → JField (List Nat)
  | .mk _ _ _ _ _ _ u _ _ _ => u

def MemoryDict.children : MemoryDict → List MemoryDict
  | .mk _ _ _ _ _ _ _ _ _ cs => cs

/-- The `updated_at` entry written by `to_dict`: `model_dump` always emits the
key, so an unset value becomes an explicit null; a set value is replaced by
its textual form (`if self.updated_at: ...`). -/
def uaOut : Option Nat → JField (List Nat)
  | none => .null
  | some t => .val (isoformat t)

mutual

/-- `Memory.to_dict`: the node's scalar fields with timestamps rendered
textually, plus the recursively converted children. -/
def Memory.to_dict : Memory → MemoryDict
  | .mk d cs =>
    .mk d.id d.description d.content d.tags d.author (isoformat d.created_at)
      (uaOut d.updated_at) d.access_count (isoformat d.last_accessed) (toDictL cs)

/-- `to_dict` mapped over a children list. -/
def toDictL : List Memory → List MemoryDict
  | [] => []
  | c :: cs => Memory.to_dict c :: toDictL cs

end

/-- Reading the `updated_at` entry in `from_dict`: `data.get("updated_at")` is
falsy for an absent key, an explicit null, and the empty string, and the field
is parsed only when truthy.  An empty string would then be handed unparsed to
the model constructor, which rejects it (validation failure, modelled as
`none`). -/
def uaIn : JField (List Nat) → Option (Option Nat)
  | .absent => some none
  | .null => some none
  | .val s => if s.isEmpty then none else some (some (fromisoformat s))

mutual

/-- `Memory.from_dict`: parse the timestamps, reconstruct the node and its
children; `none` models a raised validation/parse error. -/
def MemoryDict.from_dict : MemoryDict → Option Memory
  | .mk i d c t a ca ua ac la cs =>
    match uaIn ua with
    | none => none
    | some u =>
      match fromDictL cs with
      | none => none
      | some ms =>
        some (.mk { id := i, description := d, content := c, tags := t, author := a,
                    created_at := fromisoformat ca, updated_at := u,
                    access_count := ac, last_accessed := fromisoformat la } ms)

/-- `from_dict` mapped over a children list; fails if any child fails. -/
def fromDictL : List MemoryDict → Option (List Memory)
  | [] => some []
  | c :: cs =>
    match MemoryDict.from_dict c, fromDictL cs with
    | some m, some ms => some (m :: ms)
    | _, _ => none

end

/-- Boolean membership in a string list. -/
def memStr (ks : List String) (k : String) : Bool :=
  match ks with
  | [] => false
  | a :: ks => (k == a) || memStr ks k

/-- No string occurs twice in the list. -/
def dupFree : List String → Bool
  | [] => true
  | k :: ks => !memStr ks k && dupFree ks

/-- The description keys of the forest roots are pairwise distinct. -/
def keysNodupL (cs : List Memory) : Bool := dupFree (cs.map Memory.description)

/-- Every node of the forest has children with pairwise distinct descriptions. -/
def forestOk : List Memory → Bool
  | [] => true
  | .mk _ gcs :: cs => keysNodupL gcs && forestOk gcs && forestOk cs

/-- Sibling key uniqueness, at every node of `m`'s tree. -/
def SiblingKeysUnique (m : Memory) : Prop := forestOk [m] = true

/-- One public mutating call of the store, with its explicit time/id inputs. -/
inductive StoreOp where
  | add (position : List String) (description : String) (content : Option String)
      (tags : List String) (author : String) (id : String) (now : Nat)
  | read (position : List String) (now : Nat)
  | edit (position : List String) (description content : Option String)
      (tags : Option (List String)) (now : Nat)
  | remove (position : List String)

/-- The tree resulting from one store call. -/
def applyOp (root : Memory) : StoreOp → Memory
  | .add position description content tags author id now =>
    (add_memory root position description content tags author id now).2
  | .read position now => (read_memory root position now).2
  | .edit position description content tags now =>
    (edit_memory root position description content tags now).2
  | .remove position => (remove_memory root position).2

/-- The tree after a sequence of store calls. -/
def applyOps (root : Memory) (ops : List StoreOp) : Memory := ops.foldl applyOp root

/-- Arguments of one `edit_memory` call. -/
structure EditCall where
  position : List String
  description : Option String
  content : Option String
  tags : Option (List String)
  now : Nat

/-- The tree after a sequence of edit calls. -/
def applyEdits (root : Memory) (calls : List EditCall) : Memory :=
  calls.foldl (fun r c => (edit_memory r c.position c.description c.content c.tags c.now).2) root

/-- Pointwise over two equal-shaped forests: no node's `content` goes from set
back to unset. -/
def contentKeptF : List Memory → List Memory → Prop
  | [], [] => True
  | .mk d gcs :: cs, .mk d2 gcs2 :: cs2 =>
    (d.content.isSome → d2.content.isSome) ∧ contentKeptF gcs gcs2 ∧ contentKeptF cs cs2
  | [], _ :: _ => False
  | _ :: _, [] => False

/-- No node's `content` went from a set value back to the unset state between
the two trees. -/
def ContentKept (m m2 : Memory) : Prop := contentKeptF [m] [m2]

/-- Replace the first occurrence of `t` in a string list by `k2`. -/
def setFirstStr : List String → String → String → List String
  | [], _, _ => []
  | k :: ks, t, k2 => if k = t then k2 :: ks else k :: setFirstStr ks t k2

/-- A concrete leaf node used in witnesses. -/
def childB : Memory := Memory.new "id-b" "b" (some "cb") [] "u" 2

/-- A concrete node with one child, used in witnesses. -/
def childA : Memory := (Memory.new "id-a" "a" (some "ca") ["t"] "u" 1).setChildren [childB]

/-- A concrete store tree: the root with child "a", which has child "b". -/
def sampleRoot : Memory := (freshRoot "id-r" 0).setChildren [childA]

/-- A concrete freshly created, never edited node. -/
def neverEdited : Memory := Memory.new "id0" "test" none [] "user" 3

@[simp] theorem Memory.data_mk (d : MemoryData) (cs : List Memory) :
    (Memory.mk d cs).data = d := rfl

@[simp] theorem Memory.children_mk (d : MemoryData) (cs : List Memory) :
    (Memory.mk d cs).children = cs := rfl

@[simp] theorem Memory.description_mk (d : MemoryData) (cs : List Memory) :
    (Memory.mk d cs).description = d.description := rfl

@[simp] theorem Memory.content_mk (d : MemoryData) (cs : List Memory) :
    (Memory.mk d cs).content = d.content := rfl

@[simp] theorem Memory.setChildren_mk (d : MemoryData) (cs cs2 : List Memory) :
    (Memory.mk d cs).setChildren cs2 = .mk d cs2 := rfl

@[simp] theorem Memory.mk_data_children (m : Memory) : Memory.mk m.data m.children = m := by
  cases m
  rfl

@[simp] theorem Memory.setChildren_children (m : Memory) : m.setChildren m.children = m := by
  cases m
  rfl

/-- Induction over forests of memories: handle the empty forest, and a cons
whose head's children and whose tail both satisfy the motive. -/
theorem forest_ind (P : List Memory → Prop) (h0 : P [])
    (h1 : ∀ d gcs cs, P gcs → P cs → P (Memory.mk d gcs :: cs)) : ∀ cs, P cs
  | [] => h0
  | .mk d gcs :: cs => h1 d gcs cs (forest_ind P h0 h1 gcs) (forest_ind P h0 h1 cs)

/-- Induction over a memory node from its children. -/
theorem memory_ind (P : Memory → Prop)
    (h : ∀ d cs, (∀ c ∈ cs, P c) → P (Memory.mk d cs)) : ∀ m, P m := by
  have key : ∀ cs : List Memory, ∀ c ∈ cs, P c := by
    intro cs
    induction cs using forest_ind with
    | h0 => intro c hc; cases hc
    | h1 d gcs cs ih1 ih2 =>
      intro c hc
      rcases List.mem_cons.mp hc with h1c | h1c
      · subst h1c; exact h d gcs ih1
      · exact ih2 c h1c
  intro m
  cases m with
  | mk d cs => exact h d cs (key cs)

theorem beqF_iff : ∀ cs cs2 : List Memory, beqF cs cs2 = true ↔ cs = cs2 := by
  intro cs
  induction cs using forest_ind with
  | h0 => intro cs2; cases cs2 <;> simp [beqF]
  | h1 d gcs cs ih1 ih2 =>
    intro cs2
    cases cs2 with
    | nil => simp [beqF]
    | cons c2 cs2 =>
      cases c2 with
      | mk d2 gcs2 => simp [beqF, ih1, ih2]

theorem beqM_iff (a b : Memory) : beqM a b = true ↔ a = b := by
  unfold beqM
  rw [beqF_iff]
  simp

@[simp] theorem beqM_refl (a : Memory) : beqM a a = true := (beqM_iff a a).mpr rfl

theorem beqM_false_iff (a b : Memory) : beqM a b = false ↔ a ≠ b := by
  rw [← Bool.not_eq_true, not_iff_not]
  exact beqM_iff a b

@[simp] theorem navigate_nil (m : Memory) : navigate m [] = some m := rfl

theorem navigate_append (m : Memory) (p q : List String) :
    navigate m (p ++ q) = (navigate m p).bind (fun n => navigate n q) := by
  induction p generalizing m with
  | nil => simp
  | cons d rest ih =>
    simp only [List.cons_append, navigate]
    cases findFirst m.children d with
    | none => rfl
    | some c => exact ih c

theorem findFirst_mem {cs : List Memory} {d : String} {c : Memory}
    (h : findFirst cs d = some c) : c ∈ cs := by
  induction cs with
  | nil => simp [findFirst] at h
  | cons x cs ih =>
    rw [findFirst] at h
    by_cases hx : x.description = d
    · rw [if_pos hx] at h
      cases h
      exact List.mem_cons_self _ _
    · rw [if_neg hx] at h
      exact List.mem_cons_of_mem x (ih h)

theorem findFirst_desc {cs : List Memory} {d : String} {c : Memory}
    (h : findFirst cs d = some c) : c.description = d := by
  induction cs with
  | nil => simp [findFirst] at h
  | cons x cs ih =>
    rw [findFirst] at h
    by_cases hx : x.description = d
    · rw [if_pos hx] at h
      cases h
      exact hx
    · rw [if_neg hx] at h
      exact ih h

theorem sizeOf_children_lt (m : Memory) : sizeOf m.children < sizeOf m := by
  cases m with
  | mk d cs => simp [Memory.children]

theorem navigate_sizeOf_le {p : List String} :
    ∀ {m n : Memory}, navigate m p = some n → sizeOf n ≤ sizeOf m := by
  induction p with
  | nil =>
    intro m n h
    rw [navigate_nil] at h
    cases h
    exact Nat.le_refl _
  | cons d rest ih =>
    intro m n h
    rw [navigate] at h
    cases hf : findFirst m.children d with
    | none => rw [hf] at h; cases h
    | some c =>
      rw [hf] at h
      have h1 : sizeOf c < sizeOf m.children := List.sizeOf_lt_of_mem (findFirst_mem hf)
      have h2 := sizeOf_children_lt m
      exact Nat.le_trans (ih h) (by omega)

theorem navigate_cons_ne {root m : Memory} {d : String} {rest : List String}
    (h : navigate root (d :: rest) = some m) : m ≠ root := by
  rw [navigate] at h
  cases hf : findFirst root.children d with
  | none => rw [hf] at h; cases h
  | some c =>
    rw [hf] at h
    have h1 : sizeOf c < sizeOf root.children := List.sizeOf_lt_of_mem (findFirst_mem hf)
    have h2 := sizeOf_children_lt root
    have h3 := navigate_sizeOf_le h
    intro he
    subst he
    omega

theorem updateFirst_of_none {cs : List Memory} {d : String} {g : Memory → Memory}
    (h : findFirst cs d = none) : updateFirst cs d g = cs := by
  induction cs with
  | nil => rfl
  | cons x cs ih =>
    rw [findFirst] at h
    by_cases hx : x.description = d
    · simp [hx] at h
    · rw [if_neg hx] at h
      rw [updateFirst, if_neg hx, ih h]

theorem updateFirst_self {cs : List Memory} {d : String} {g : Memory → Memory}
    (hg : ∀ c, findFirst cs d = some c → g c = c) : updateFirst cs d g = cs := by
  induction cs with
  | nil => rfl
  | cons x cs ih =>
    rw [updateFirst]
    by_cases hx : x.description = d
    · rw [if_pos hx, hg x (by rw [findFirst, if_pos hx])]
    · rw [if_neg hx, ih]
      intro c hc
      exact hg c (by rw [findFirst, if_neg hx]; exact hc)

theorem findFirst_updateFirst_self {cs : List Memory} {d : String} {g : Memory → Memory}
    {c : Memory} (h : findFirst cs d = some c) (hg : (g c).description = d) :
    findFirst (updateFirst cs d g) d = some (g c) := by
  induction cs with
  | nil => simp [findFirst] at h
  | cons x cs ih =>
    rw [findFirst] at h
    by_cases hx : x.description = d
    · simp only [hx, if_pos rfl] at h
      cases h
      rw [updateFirst, if_pos hx, findFirst, if_pos hg]
    · rw [if_neg hx] at h
      rw [updateFirst, if_neg hx, findFirst, if_neg hx]
      exact ih h

theorem findFirst_updateFirst_ne {cs : List Memory} {d e : String} {g : Memory → Memory}
    (hne : e ≠ d)
    (hg : ∀ c, findFirst cs d = some c → (g c).description = c.description) :
    findFirst (updateFirst cs d g) e = findFirst cs e := by
  induction cs with
  | nil => rfl
  | cons x cs ih =>
    by_cases hx : x.description = d
    · have hgx : (g x).description = x.description := hg x (by rw [findFirst, if_pos hx])
      have hxe : ¬ (x.description = e) := by
        rw [hx]
        exact fun he => hne he.symm
      rw [updateFirst, if_pos hx, findFirst, hgx, findFirst, if_neg hxe, if_neg hxe]
    · rw [updateFirst, if_neg hx, findFirst, findFirst]
      by_cases hxe : x.description = e
      · rw [if_pos hxe, if_pos hxe]
      · rw [if_neg hxe, if_neg hxe]
        exact ih (fun c hc => hg c (by rw [findFirst, if_neg hx]; exact hc))

@[simp] theorem updateAt_nil (m : Memory) (f : Memory → Memory) : updateAt m [] f = f m := rfl

theorem updateAt_cons (m : Memory) (d : String) (rest : List String) (f : Memory → Memory) :
    updateAt m (d :: rest) f
      = m.setChildren (updateFirst m.children d (fun c => updateAt c rest f)) := rfl

theorem updateAt_data (m : Memory) (d : String) (rest : List String) (f : Memory → Memory) :
    (updateAt m (d :: rest) f).data = m.data := by
  cases m
  rfl

theorem updateAt_desc (m : Memory) (d : String) (rest : List String) (f : Memory → Memory) :
    (updateAt m (d :: rest) f).description = m.description := by
  cases m
  rfl

theorem updateAt_of_none {pos : List String} :
    ∀ {m : Memory} {f : Memory → Memory}, navigate m pos = none → updateAt m pos f = m := by
  induction pos with
  | nil => intro m f h; rw [navigate_nil] at h; cases h
  | cons d rest ih =>
    intro m f h
    rw [navigate] at h
    rw [updateAt_cons]
    cases hf : findFirst m.children d with
    | none => rw [updateFirst_of_none hf, Memory.setChildren_children]
    | some c =>
      rw [hf] at h
      rw [updateFirst_self, Memory.setChildren_children]
      intro c2 hc2
      rw [hf] at hc2
      cases hc2
      exact ih h

theorem updateAt_append (root : Memory) (p q : List String) (f : Memory → Memory) :
    updateAt root (p ++ q) f = updateAt root p (fun n => updateAt n q f) := by
  induction p generalizing root with
  | nil => rfl
  | cons d rest ih =>
    rw [List.cons_append, updateAt_cons, updateAt_cons]
    congr 1
    apply congrArg
    funext c
    exact ih c

@[simp] theorem Memory.children_setChildren (m : Memory) (cs : List Memory) :
    (m.setChildren cs).children = cs := by
  cases m
  rfl

@[simp] theorem Memory.data_setChildren (m : Memory) (cs : List Memory) :
    (m.setChildren cs).data = m.data := by
  cases m
  rfl

theorem updateAt_desc_any (x : Memory) (pos : List String) (f : Memory → Memory)
    (hd : ∀ y, (f y).description = y.description) :
    (updateAt x pos f).description = x.description := by
  cases pos with
  | nil => rw [updateAt_nil]; exact hd x
  | cons a b => exact updateAt_desc x a b f

/-- Navigating to a prefix `q` of the updated position sees the corresponding
subtree updated at the remaining segments `r`. -/
theorem navigate_updateAt_append (q r : List String) :
    ∀ (root : Memory) (f : Memory → Memory),
    (r = [] → ∀ x, (f x).description = x.description) →
    navigate (updateAt root (q ++ r) f) q = (navigate root q).map (fun n => updateAt n r f) := by
  induction q with
  | nil =>
    intro root f hd
    simp
  | cons d q ih =>
    intro root f hd
    rw [List.cons_append, updateAt_cons]
    cases hf : findFirst root.children d with
    | none =>
      rw [updateFirst_of_none hf, Memory.setChildren_children]
      simp only [navigate, hf, Option.map_none']
    | some c =>
      have hdesc : (updateAt c (q ++ r) f).description = c.description := by
        cases hqr : q ++ r with
        | nil =>
          have hr : r = [] := (List.append_eq_nil.mp hqr).2
          rw [updateAt_nil]
          exact hd hr c
        | cons a b => exact updateAt_desc c a b f
      have h1 : findFirst (updateFirst root.children d (fun x => updateAt x (q ++ r) f)) d
          = some (updateAt c (q ++ r) f) :=
        findFirst_updateFirst_self hf (hdesc.trans (findFirst_desc hf))
      simp only [navigate, Memory.children_setChildren, h1, hf]
      exact ih c f hd

/-- Navigating anywhere that is not a prefix of the updated position is
unaffected, provided the update leaves description and children alone. -/
theorem navigate_updateAt_off (q : List String) :
    ∀ (pos : List String) (root : Memory) (f : Memory → Memory),
    (∀ x, (f x).description = x.description) →
    (∀ x, (f x).children = x.children) →
    (¬ ∃ r, pos = q ++ r) →
    navigate (updateAt root pos f) q = navigate root q := by
  induction q with
  | nil =>
    intro pos root f hd hc hq
    exact absurd ⟨pos, rfl⟩ hq
  | cons d q ih =>
    intro pos root f hd hc hq
    cases pos with
    | nil =>
      rw [updateAt_nil]
      simp only [navigate, hc root]
    | cons e pos =>
      rw [updateAt_cons]
      have hg : ∀ x, findFirst root.children e = some x →
          (updateAt x pos f).description = x.description :=
        fun x _ => updateAt_desc_any x pos f hd
      by_cases hde : d = e
      · subst hde
        have hq2 : ¬ ∃ r, pos = q ++ r := by
          rintro ⟨r, hr⟩
          exact hq ⟨r, by rw [hr, List.cons_append]⟩
        cases hf : findFirst root.children d with
        | none =>
          rw [updateFirst_of_none hf, Memory.setChildren_children]
        | some c =>
          have hdd : (updateAt c pos f).description = d := (hg c hf).trans (findFirst_desc hf)
          have h1 : findFirst (updateFirst root.children d (fun x => updateAt x pos f)) d
              = some (updateAt c pos f) := findFirst_updateFirst_self hf hdd
          simp only [navigate, Memory.children_setChildren, h1, hf]
          exact ih pos c f hd hc hq2
      · have h1 : findFirst (updateFirst root.children e (fun x => updateAt x pos f)) d
            = findFirst root.children d := findFirst_updateFirst_ne hde hg
        simp only [navigate, Memory.children_setChildren, h1]

theorem memStr_append (ks ls : List String) (k : String) :
    memStr (ks ++ ls) k = (memStr ks k || memStr ls k) := by
  induction ks with
  | nil => simp [memStr]
  | cons a ks ih => rw [List.cons_append, memStr, memStr, ih, Bool.or_assoc]

theorem memStr_findFirst (cs : List Memory) (d : String) :
    memStr (cs.map Memory.description) d = (findFirst cs d).isSome := by
  induction cs with
  | nil => rfl
  | cons x cs ih =>
    rw [List.map_cons, memStr, findFirst]
    by_cases hx : x.description = d
    · simp [hx]
    · have h2 : (d == x.description) = false := by
        simp only [beq_eq_false_iff_ne, ne_eq]
        exact fun he => hx he.symm
      rw [h2, if_neg hx, Bool.false_or, ih]

@[simp] theorem keysNodupL_nil : keysNodupL [] = true := rfl

theorem keysNodupL_cons (c : Memory) (cs : List Memory) :
    keysNodupL (c :: cs)
      = (!memStr (cs.map Memory.description) c.description && keysNodupL cs) := by
  rw [keysNodupL, List.map_cons, dupFree, keysNodupL]

theorem forestOk_singleton (d : MemoryData) (cs : List Memory) :
    forestOk [Memory.mk d cs] = (keysNodupL cs && forestOk cs) := by
  simp [forestOk]

theorem forestOk_cons (c : Memory) (cs : List Memory) :
    forestOk (c :: cs) = (forestOk [c] && forestOk cs) := by
  cases c with
  | mk d gcs => simp [forestOk, Bool.and_assoc]

theorem forestOk_append (cs cs2 : List Memory) :
    forestOk (cs ++ cs2) = (forestOk cs && forestOk cs2) := by
  induction cs with
  | nil => simp [forestOk]
  | cons c cs ih => rw [List.cons_append, forestOk_cons, forestOk_cons c cs, ih, Bool.and_assoc]

theorem forestOk_mem {cs : List Memory} {c : Memory} (h : forestOk cs = true) (hc : c ∈ cs) :
    forestOk [c] = true := by
  induction cs with
  | nil => cases hc
  | cons x cs ih =>
    rw [forestOk_cons, Bool.and_eq_true] at h
    rcases List.mem_cons.mp hc with h1 | h1
    · subst h1
      exact h.1
    · exact ih h.2 h1

/-- Any node reached by navigation from a key-unique tree is key-unique. -/
theorem forestOk_navigate {pos : List String} :
    ∀ {root m : Memory}, forestOk [root] = true → navigate root pos = some m →
      forestOk [m] = true := by
  induction pos with
  | nil =>
    intro root m hok h
    rw [navigate_nil] at h
    cases h
    exact hok
  | cons d rest ih =>
    intro root m hok h
    rw [navigate] at h
    cases hf : findFirst root.children d with
    | none => rw [hf] at h; cases h
    | some c =>
      rw [hf] at h
      have hcs : forestOk root.children = true := by
        cases root with
        | mk dd cs =>
          rw [forestOk_singleton, Bool.and_eq_true] at hok
          exact hok.2
      exact ih (forestOk_mem hcs (findFirst_mem hf)) h

theorem bool_not_true {b : Bool} : (!b) = true ↔ b = false := by
  cases b
  · simp
  · simp

theorem dupFree_append_singleton {ks : List String} {k : String}
    (h1 : dupFree ks = true) (h2 : memStr ks k = false) :
    dupFree (ks ++ [k]) = true := by
  induction ks with
  | nil => simp [dupFree, memStr]
  | cons a ks ih =>
    rw [dupFree, Bool.and_eq_true] at h1
    rw [memStr, Bool.or_eq_false_iff] at h2
    rw [List.cons_append, dupFree, Bool.and_eq_true]
    refine ⟨?_, ih h1.2 h2.2⟩
    rw [bool_not_true, memStr_append, Bool.or_eq_false_iff]
    refine ⟨bool_not_true.mp h1.1, ?_⟩
    rw [memStr, memStr, Bool.or_false]
    rw [beq_eq_false_iff_ne] at h2 ⊢
    exact fun he => h2.1 he.symm

theorem memStr_map_removeFirst {cs : List Memory} {t k : String}
    (h : memStr ((removeFirst cs t).map Memory.description) k = true) :
    memStr (cs.map Memory.description) k = true := by
  induction cs with
  | nil => exact h
  | cons c cs ih =>
    rw [removeFirst] at h
    by_cases hc : c.description = t
    · rw [if_pos hc] at h
      rw [List.map_cons, memStr, h, Bool.or_true]
    · rw [if_neg hc, List.map_cons, memStr, Bool.or_eq_true] at h
      rw [List.map_cons, memStr, Bool.or_eq_true]
      rcases h with h | h
      · exact Or.inl h
      · exact Or.inr (ih h)

theorem keysNodupL_removeFirst {cs : List Memory} {t : String}
    (h : keysNodupL cs = true) : keysNodupL (removeFirst cs t) = true := by
  induction cs with
  | nil => rfl
  | cons c cs ih =>
    rw [keysNodupL_cons, Bool.and_eq_true] at h
    rw [removeFirst]
    by_cases hc : c.description = t
    · rw [if_pos hc]
      exact h.2
    · rw [if_neg hc, keysNodupL_cons, Bool.and_eq_true]
      refine ⟨?_, ih h.2⟩
      rw [bool_not_true]
      cases hm : memStr ((removeFirst cs t).map Memory.description) c.description with
      | false => rfl
      | true =>
        exfalso
        have := memStr_map_removeFirst hm
        rw [bool_not_true.mp h.1] at this
        cases this

theorem forestOk_removeFirst {cs : List Memory} {t : String}
    (h : forestOk cs = true) : forestOk (removeFirst cs t) = true := by
  induction cs with
  | nil => exact h
  | cons c cs ih =>
    rw [forestOk_cons, Bool.and_eq_true] at h
    rw [removeFirst]
    by_cases hc : c.description = t
    · rw [if_pos hc]
      exact h.2
    · rw [if_neg hc, forestOk_cons, Bool.and_eq_true]
      exact ⟨h.1, ih h.2⟩

theorem findFirst_removeFirst {cs : List Memory} {t : String}
    (h : keysNodupL cs = true) : findFirst (removeFirst cs t) t = none := by
  induction cs with
  | nil => rfl
  | cons c cs ih =>
    rw [keysNodupL_cons, Bool.and_eq_true] at h
    rw [removeFirst]
    by_cases hc : c.description = t
    · rw [if_pos hc]
      have hm : memStr (cs.map Memory.description) t = false := by
        rw [← hc]
        exact bool_not_true.mp h.1
      rw [memStr_findFirst] at hm
      cases hx : findFirst cs t with
      | none => rfl
      | some y => rw [hx] at hm; cases hm
    · rw [if_neg hc, findFirst, if_neg hc]
      exact ih h.2

theorem memStr_setFirstStr {ks : List String} {t k2 x : String}
    (h : memStr (setFirstStr ks t k2) x = true) : memStr ks x = true ∨ x = k2 := by
  induction ks with
  | nil => cases h
  | cons a ks ih =>
    rw [setFirstStr] at h
    by_cases ha : a = t
    · rw [if_pos ha, memStr, Bool.or_eq_true] at h
      rcases h with h | h
      · exact Or.inr (eq_of_beq h)
      · exact Or.inl (by rw [memStr, h, Bool.or_true])
    · rw [if_neg ha, memStr, Bool.or_eq_true] at h
      rcases h with h | h
      · exact Or.inl (by rw [memStr, h, Bool.true_or])
      · rcases ih h with h2 | h2
        · exact Or.inl (by rw [memStr, h2, Bool.or_true])
        · exact Or.inr h2

theorem dupFree_setFirstStr {ks : List String} {t k2 : String}
    (h : dupFree ks = true) (hno : memStr ks k2 = false ∨ k2 = t) :
    dupFree (setFirstStr ks t k2) = true := by
  induction ks with
  | nil => exact h
  | cons a ks ih =>
    rw [dupFree, Bool.and_eq_true] at h
    rw [setFirstStr]
    by_cases ha : a = t
    · rw [if_pos ha, dupFree, Bool.and_eq_true]
      refine ⟨?_, h.2⟩
      rw [bool_not_true]
      rcases hno with hno | hno
      · rw [memStr, Bool.or_eq_false_iff] at hno
        exact hno.2
      · rw [hno, ← ha]
        exact bool_not_true.mp h.1
    · rw [if_neg ha, dupFree, Bool.and_eq_true]
      have hak2 : a ≠ k2 := by
        rcases hno with hno | hno
        · rw [memStr, Bool.or_eq_false_iff] at hno
          rw [beq_eq_false_iff_ne] at hno
          exact fun he => hno.1 he.symm
        · rw [hno]
          exact ha
      constructor
      · rw [bool_not_true]
        cases hm : memStr (setFirstStr ks t k2) a with
        | false => rfl
        | true =>
          exfalso
          rcases memStr_setFirstStr hm with h2 | h2
          · rw [bool_not_true.mp h.1] at h2
            cases h2
          · exact hak2 h2
      · apply ih h.2
        rcases hno with hno | hno
        · rw [memStr, Bool.or_eq_false_iff] at hno
          exact Or.inl hno.2
        · exact Or.inr hno

theorem map_updateFirst_desc {cs : List Memory} {d : String} {g : Memory → Memory}
    (hg : ∀ c, findFirst cs d = some c → (g c).description = c.description) :
    (updateFirst cs d g).map Memory.description = cs.map Memory.description := by
  induction cs with
  | nil => rfl
  | cons x cs ih =>
    rw [updateFirst]
    by_cases hx : x.description = d
    · rw [if_pos hx, List.map_cons, List.map_cons, hg x (by rw [findFirst, if_pos hx])]
    · rw [if_neg hx, List.map_cons, List.map_cons,
        ih (fun c hc => hg c (by rw [findFirst, if_neg hx]; exact hc))]

theorem map_updateFirst {cs : List Memory} {t : String} {g : Memory → Memory} {c : Memory}
    (h : findFirst cs t = some c) :
    (updateFirst cs t g).map Memory.description
      = setFirstStr (cs.map Memory.description) t (g c).description := by
  induction cs with
  | nil => cases h
  | cons x cs ih =>
    rw [findFirst] at h
    by_cases hx : x.description = t
    · rw [if_pos hx] at h
      cases h
      rw [updateFirst, if_pos hx, List.map_cons, List.map_cons, setFirstStr, if_pos hx]
    · rw [if_neg hx] at h
      rw [updateFirst, if_neg hx, List.map_cons, List.map_cons, setFirstStr, if_neg hx, ih h]

theorem forestOk_updateFirst {cs : List Memory} {d : String} {g : Memory → Memory}
    (hok : forestOk cs = true)
    (hg : ∀ c, findFirst cs d = some c → forestOk [c] = true → forestOk [g c] = true) :
    forestOk (updateFirst cs d g) = true := by
  induction cs with
  | nil => exact hok
  | cons x cs ih =>
    rw [forestOk_cons, Bool.and_eq_true] at hok
    rw [updateFirst]
    by_cases hx : x.description = d
    · rw [if_pos hx, forestOk_cons, Bool.and_eq_true]
      exact ⟨hg x (by rw [findFirst, if_pos hx]) hok.1, hok.2⟩
    · rw [if_neg hx, forestOk_cons, Bool.and_eq_true]
      exact ⟨hok.1, ih hok.2 (fun c hc hc2 => hg c (by rw [findFirst, if_neg hx]; exact hc) hc2)⟩

/-- Master preservation lemma: updating the node resolved by a position with a
key-unique replacement of equal description keeps the whole tree key-unique. -/
theorem forestOk_updateAt {pos : List String} :
    ∀ {root m : Memory} {f : Memory → Memory},
    forestOk [root] = true →
    navigate root pos = some m →
    forestOk [f m] = true →
    (f m).description = m.description →
    forestOk [updateAt root pos f] = true := by
  induction pos with
  | nil =>
    intro root m f hok hnav hfm _
    rw [navigate_nil] at hnav
    cases hnav
    rw [updateAt_nil]
    exact hfm
  | cons d rest ih =>
    intro root m f hok hnav hfm hdesc
    cases root with
    | mk dd cs =>
      rw [navigate] at hnav
      simp only [Memory.children_mk] at hnav
      cases hf : findFirst cs d with
      | none => rw [hf] at hnav; cases hnav
      | some c =>
        rw [hf] at hnav
        change navigate c rest = some m at hnav
        rw [forestOk_singleton, Bool.and_eq_true] at hok
        rw [updateAt_cons, Memory.children_mk, Memory.setChildren_mk,
          forestOk_singleton, Bool.and_eq_true]
        have hgd : ∀ x, findFirst cs d = some x →
            ((fun y => updateAt y rest f) x).description = x.description := by
          intro x hx
          rw [hf] at hx
          cases hx
          cases rest with
          | nil =>
            rw [navigate_nil] at hnav
            cases hnav
            exact hdesc
          | cons a b => exact updateAt_desc _ a b f
        constructor
        · rw [keysNodupL, map_updateFirst_desc hgd]
          exact hok.1
        · apply forestOk_updateFirst hok.2
          intro x hx hxok
          rw [hf] at hx
          cases hx
          exact ih hxok hnav hfm hdesc

@[simp] theorem Memory.description_setChildren (m : Memory) (cs : List Memory) :
    (m.setChildren cs).description = m.description := by
  cases m
  rfl

theorem forestOk_eq_of_children {m m2 : Memory} (h : m.children = m2.children) :
    forestOk [m] = forestOk [m2] := by
  cases m with
  | mk d cs =>
    cases m2 with
    | mk d2 cs2 =>
      simp only [Memory.children_mk] at h
      rw [forestOk_singleton, forestOk_singleton, h]

theorem forestOk_leaf (d : MemoryData) : forestOk [Memory.mk d []] = true := by
  rw [forestOk_singleton]
  simp [forestOk, keysNodupL, dupFree]

theorem forestOk_new (id description : String) (content : Option String)
    (tags : List String) (author : String) (now : Nat) :
    forestOk [Memory.new id description content tags author now] = true :=
  forestOk_leaf _

@[simp] theorem applyEdit_children (d c : Option String) (t : Option (List String))
    (now : Nat) (m : Memory) : (applyEdit d c t now m).children = m.children := by
  simp [applyEdit]

@[simp] theorem applyEdit_none_description (c : Option String) (t : Option (List String))
    (now : Nat) (m : Memory) : (applyEdit none c t now m).description = m.description := by
  cases c <;> cases t <;> rfl

@[simp] theorem applyEdit_some_description (d : String) (c : Option String)
    (t : Option (List String)) (now : Nat) (m : Memory) :
    (applyEdit (some d) c t now m).description = d := by
  cases c <;> cases t <;> rfl

@[simp] theorem update_access_children (now : Nat) (m : Memory) :
    (m.update_access now).children = m.children := rfl

@[simp] theorem update_access_description (now : Nat) (m : Memory) :
    (m.update_access now).description = m.description := rfl

theorem any_false {cs : List Memory} {p : Memory → Bool} (h : cs.any p = false) :
    ∀ s ∈ cs, p s = false := by
  intro s hs
  cases hp : p s with
  | false => rfl
  | true =>
    rw [List.any_eq_true.mpr ⟨s, hs, hp⟩] at h
    cases h

theorem memStr_exists_node {cs : List Memory} {k : String}
    (h : memStr (cs.map Memory.description) k = true) :
    ∃ s, s ∈ cs ∧ s.description = k := by
  rw [memStr_findFirst] at h
  cases hf : findFirst cs k with
  | none => rw [hf] at h; cases h
  | some s => exact ⟨s, findFirst_mem hf, findFirst_desc hf⟩

/-! Characterizations of each operation's branches, used throughout. -/

theorem add_memory_none (root : Memory) (position : List String) (description : String)
    (content : Option String) (tags : List String) (author id : String) (now : Nat)
    (h : navigate root position = none) :
    add_memory root position description content tags author id now
      = (.error (.positionNotFound position), root) := by
  simp [add_memory, h]

theorem add_memory_dup {root parent : Memory} {position : List String} {c : Memory}
    (description : String) (content : Option String) (tags : List String)
    (author id : String) (now : Nat)
    (h1 : navigate root position = some parent)
    (h2 : parent.find_child description = some c) :
    add_memory root position description content tags author id now
      = (.error (.duplicateAtPosition description), root) := by
  simp [add_memory, h1, h2]

theorem add_memory_ok {root parent : Memory} {position : List String}
    (description : String) (content : Option String) (tags : List String)
    (author id : String) (now : Nat)
    (h1 : navigate root position = some parent)
    (h2 : parent.find_child description = none) :
    add_memory root position description content tags author id now
      = (.ok { id := id, description := description,
               position := position ++ [description], created_at := now },
         updateAt root position (fun p =>
           p.setChildren (p.children ++ [Memory.new id description content tags author now]))) := by
  simp [add_memory, h1, h2]

theorem read_memory_none (root : Memory) (position : List String) (now : Nat)
    (h : navigate root position = none) :
    read_memory root position now = (.error (.memoryNotFound position), root) := by
  simp [read_memory, h]

theorem read_memory_ok {root memory : Memory} {position : List String} (now : Nat)
    (h : navigate root position = some memory) :
    read_memory root position now
      = (.ok { id := (memory.update_access now).id,
               description := (memory.update_access now).description,
               content := (memory.update_access now).content,
               tags := (memory.update_access now).tags,
               author := (memory.update_access now).author,
               created_at := (memory.update_access now).created_at,
               updated_at := (memory.update_access now).updated_at,
               access_count := (memory.update_access now).access_count,
               last_accessed := (memory.update_access now).last_accessed,
               has_children := decide (0 < (memory.update_access now).children.length) },
         updateAt root position (Memory.update_access now)) := by
  simp [read_memory, h]

theorem list_children_none (root : Memory) (position : List String)
    (h : navigate root position = none) :
    list_children root position = .error (.memoryNotFound position) := by
  simp [list_children, h]

theorem list_children_ok {root memory : Memory} {position : List String}
    (h : navigate root position = some memory) :
    list_children root position
      = .ok { position := position,
              children := memory.children.map (fun c =>
                { description := c.description, content := c.content,
                  children_count := c.children.length, tags := c.tags }) } := by
  simp [list_children, h]

theorem edit_memory_none (root : Memory) (position : List String)
    (description content : Option String) (tags : Option (List String)) (now : Nat)
    (h : navigate root position = none) :
    edit_memory root position description content tags now
      = (.error (.memoryNotFound position), root) := by
  simp [edit_memory, h]

theorem edit_memory_root {root memory : Memory} {position : List String}
    (description content : Option String) (tags : Option (List String)) (now : Nat)
    (h1 : navigate root position = some memory) (h2 : beqM memory root = true) :
    edit_memory root position description content tags now
      = (.error .cannotEditRoot, root) := by
  simp [edit_memory, h1, h2]

theorem edit_memory_conflict {root memory : Memory} {position : List String} {d : String}
    (content : Option String) (tags : Option (List String)) (now : Nat)
    (h1 : navigate root position = some memory) (h2 : beqM memory root = false)
    (h3 : renameConflict root memory position d = true) :
    edit_memory root position (some d) content tags now
      = (.error (.duplicateAtLevel d), root) := by
  simp [edit_memory, h1, h2, h3]

theorem edit_memory_rename_ok {root memory : Memory} {position : List String} {d : String}
    (content : Option String) (tags : Option (List String)) (now : Nat)
    (h1 : navigate root position = some memory) (h2 : beqM memory root = false)
    (h3 : renameConflict root memory position d = false) :
    edit_memory root position (some d) content tags now
      = (.ok { id := memory.id, description := d, updated_at := now },
         updateAt root position (applyEdit (some d) content tags now)) := by
  simp [edit_memory, h1, h2, h3]

theorem edit_memory_nokey_ok {root memory : Memory} {position : List String}
    (content : Option String) (tags : Option (List String)) (now : Nat)
    (h1 : navigate root position = some memory) (h2 : beqM memory root = false) :
    edit_memory root position none content tags now
      = (.ok { id := memory.id, description := memory.description, updated_at := now },
         updateAt root position (applyEdit none content tags now)) := by
  simp [edit_memory, h1, h2]

theorem remove_memory_nil (root : Memory) :
    remove_memory root [] = (.error .cannotRemoveRoot, root) := by
  simp [remove_memory]

theorem remove_memory_noparent (root : Memory) {position : List String}
    (hne : position.isEmpty = false)
    (h : navigate root position.dropLast = none) :
    remove_memory root position = (.error (.parentNotFound position.dropLast), root) := by
  simp [remove_memory, hne, h]

theorem remove_memory_nochild {root parent : Memory} {position : List String}
    (hne : position.isEmpty = false)
    (h1 : navigate root position.dropLast = some parent)
    (h2 : findFirst parent.children (position.getLastD "") = none) :
    remove_memory root position
      = (.error (.childNotFound (position.getLastD "") position.dropLast), root) := by
  simp only [List.getLastD_eq_getLast?] at h2
  simp [remove_memory, hne, h1, h2]

theorem remove_memory_ok {root parent removed : Memory} {position : List String}
    (hne : position.isEmpty = false)
    (h1 : navigate root position.dropLast = some parent)
    (h2 : findFirst parent.children (position.getLastD "") = some removed) :
    remove_memory root position
      = (.ok { removed := removed.description,
               children_removed := count_all_children removed },
         updateAt root position.dropLast (fun p =>
           p.setChildren (removeFirst p.children (position.getLastD "")))) := by
  simp only [List.getLastD_eq_getLast?] at h2
  simp [remove_memory, hne, h1, h2]

@[simp] theorem Memory.new_description (id d : String) (c : Option String)
    (t : List String) (a : String) (now : Nat) :
    (Memory.new id d c t a now).description = d := rfl

/-- `add_memory` preserves sibling key uniqueness. -/
theorem add_pres (root : Memory) (position : List String) (description : String)
    (content : Option String) (tags : List String) (author id : String) (now : Nat)
    (hok : forestOk [root] = true) :
    forestOk [(add_memory root position description content tags author id now).2] = true := by
  cases hnav : navigate root position with
  | none => rw [add_memory_none _ _ _ _ _ _ _ _ hnav]; exact hok
  | some parent =>
    cases hfc : parent.find_child description with
    | some x => rw [add_memory_dup description content tags author id now hnav hfc]; exact hok
    | none =>
      rw [add_memory_ok description content tags author id now hnav hfc]
      have hpok := forestOk_navigate hok hnav
      apply forestOk_updateAt hok hnav
      · cases parent with
        | mk pd pcs =>
          rw [forestOk_singleton, Bool.and_eq_true] at hpok
          rw [Memory.children_mk, Memory.setChildren_mk, forestOk_singleton, Bool.and_eq_true]
          rw [Memory.find_child, Memory.children_mk] at hfc
          constructor
          · rw [keysNodupL, List.map_append, List.map_singleton, Memory.new_description]
            apply dupFree_append_singleton hpok.1
            rw [memStr_findFirst, hfc]
            rfl
          · rw [forestOk_append, hpok.2, forestOk_new]
            rfl
      · rw [Memory.description_setChildren]

/-- `read_memory` preserves sibling key uniqueness. -/
theorem read_pres (root : Memory) (position : List String) (now : Nat)
    (hok : forestOk [root] = true) :
    forestOk [(read_memory root position now).2] = true := by
  cases hnav : navigate root position with
  | none => rw [read_memory_none _ _ _ hnav]; exact hok
  | some memory =>
    rw [read_memory_ok now hnav]
    apply forestOk_updateAt hok hnav
    · rw [forestOk_eq_of_children (update_access_children now memory)]
      exact forestOk_navigate hok hnav
    · exact update_access_description now memory

/-- `remove_memory` preserves sibling key uniqueness. -/
theorem remove_pres (root : Memory) (position : List String)
    (hok : forestOk [root] = true) :
    forestOk [(remove_memory root position).2] = true := by
  cases position with
  | nil => rw [remove_memory_nil]; exact hok
  | cons p ps =>
    have hne : (p :: ps).isEmpty = false := rfl
    cases hnav : navigate root (p :: ps).dropLast with
    | none => rw [remove_memory_noparent root hne hnav]; exact hok
    | some parent =>
      cases hfc : findFirst parent.children ((p :: ps).getLastD "") with
      | none => rw [remove_memory_nochild hne hnav hfc]; exact hok
      | some removed =>
        rw [remove_memory_ok hne hnav hfc]
        have hpok := forestOk_navigate hok hnav
        apply forestOk_updateAt hok hnav
        · cases parent with
          | mk pd pcs =>
            rw [forestOk_singleton, Bool.and_eq_true] at hpok
            rw [Memory.children_mk, Memory.setChildren_mk, forestOk_singleton, Bool.and_eq_true]
            exact ⟨keysNodupL_removeFirst hpok.1, forestOk_removeFirst hpok.2⟩
        · rw [Memory.description_setChildren]

/-- `edit_memory` preserves sibling key uniqueness. -/
theorem edit_pres (root : Memory) (position : List String)
    (description content : Option String) (tags : Option (List String)) (now : Nat)
    (hok : forestOk [root] = true) :
    forestOk [(edit_memory root position description content tags now).2] = true := by
  cases hnav : navigate root position with
  | none => rw [edit_memory_none _ _ _ _ _ _ hnav]; exact hok
  | some memory =>
    cases hbeq : beqM memory root with
    | true => rw [edit_memory_root description content tags now hnav hbeq]; exact hok
    | false =>
      have hmok : forestOk [memory] = true := forestOk_navigate hok hnav
      cases description with
      | none =>
        rw [edit_memory_nokey_ok content tags now hnav hbeq]
        apply forestOk_updateAt hok hnav
        · rw [forestOk_eq_of_children (applyEdit_children none content tags now memory)]
          exact hmok
        · exact applyEdit_none_description content tags now memory
      | some dNew =>
        cases hconf : renameConflict root memory position dNew with
        | true => rw [edit_memory_conflict content tags now hnav hbeq hconf]; exact hok
        | false =>
          rw [edit_memory_rename_ok content tags now hnav hbeq hconf]
          rcases List.eq_nil_or_concat position with hpos | ⟨q, e, hpos⟩
          · subst hpos
            rw [navigate_nil] at hnav
            cases hnav
            rw [beqM_refl] at hbeq
            cases hbeq
          · subst hpos
            rw [List.concat_eq_append] at hnav hconf ⊢
            rw [navigate_append] at hnav
            cases hq : navigate root q with
            | none => rw [hq] at hnav; cases hnav
            | some parent =>
              rw [hq] at hnav
              change navigate parent [e] = some memory at hnav
              rw [navigate] at hnav
              cases hf : findFirst parent.children e with
              | none => rw [hf] at hnav; cases hnav
              | some mem2 =>
                rw [hf] at hnav
                change navigate mem2 [] = some memory at hnav
                rw [navigate_nil] at hnav
                cases hnav
                have hmdesc : memory.description = e := findFirst_desc hf
                have hpok : forestOk [parent] = true := forestOk_navigate hok hq
                have hnoc : ∀ s ∈ parent.children, s = memory ∨ s.description ≠ dNew := by
                  intro s hs
                  rw [renameConflict, List.dropLast_concat, hq] at hconf
                  change parent.children.any
                    (fun s => !beqM s memory && (s.description == dNew)) = false at hconf
                  have hsf := any_false hconf s hs
                  cases hb : beqM s memory with
                  | true => exact Or.inl ((beqM_iff s memory).mp hb)
                  | false =>
                    right
                    rw [hb] at hsf
                    simp only [Bool.not_false, Bool.true_and] at hsf
                    rw [beq_eq_false_iff_ne] at hsf
                    exact hsf
                rw [updateAt_append]
                apply forestOk_updateAt hok hq
                · cases parent with
                  | mk pd pcs =>
                    simp only [Memory.children_mk] at hf hnoc
                    rw [forestOk_singleton, Bool.and_eq_true] at hpok
                    rw [updateAt_cons, Memory.children_mk, Memory.setChildren_mk,
                      forestOk_singleton, Bool.and_eq_true]
                    constructor
                    · rw [keysNodupL, map_updateFirst hf]
                      have hgd : ((fun c => updateAt c []
                          (applyEdit (some dNew) content tags now)) memory).description = dNew := by
                        show (applyEdit (some dNew) content tags now memory).description = dNew
                        exact applyEdit_some_description dNew content tags now memory
                      rw [hgd]
                      apply dupFree_setFirstStr hpok.1
                      cases hm : memStr (pcs.map Memory.description) dNew with
                      | false => exact Or.inl rfl
                      | true =>
                        right
                        rcases memStr_exists_node hm with ⟨s, hs, hsd⟩
                        rcases hnoc s hs with hs2 | hs2
                        · rw [← hsd, hs2]
                          exact hmdesc
                        · exact absurd hsd hs2
                    · apply forestOk_updateFirst hpok.2
                      intro x hx hxok
                      rw [hf] at hx
                      cases hx
                      rw [updateAt_nil, forestOk_eq_of_children
                        (applyEdit_children (some dNew) content tags now memory)]
                      exact hxok
                · exact updateAt_desc parent e [] (applyEdit (some dNew) content tags now)

/-- One store call preserves sibling key uniqueness. -/
theorem op_pres (root : Memory) (op : StoreOp) (hok : forestOk [root] = true) :
    forestOk [applyOp root op] = true := by
  cases op with
  | add position description content tags author id now =>
    exact add_pres root position description content tags author id now hok
  | read position now => exact read_pres root position now hok
  | edit position description content tags now =>
    exact edit_pres root position description content tags now hok
  | remove position => exact remove_pres root position hok

/-- Any sequence of store calls preserves sibling key uniqueness. -/
theorem ops_pres (ops : List StoreOp) :
    ∀ root : Memory, forestOk [root] = true → forestOk [applyOps root ops] = true := by
  induction ops with
  | nil => intro root hok; exact hok
  | cons op ops ih =>
    intro root hok
    rw [applyOps, List.foldl_cons]
    exact ih (applyOp root op) (op_pres root op hok)

theorem forestOk_freshRoot (id : String) (now : Nat) : forestOk [freshRoot id now] = true :=
  forestOk_leaf _

theorem navigate_ne_of_ne_nil {root m : Memory} {pos : List String}
    (hne : pos ≠ []) (h : navigate root pos = some m) : m ≠ root := by
  cases pos with
  | nil => exact absurd rfl hne
  | cons d rest => exact navigate_cons_ne h

theorem findFirst_append_right {cs : List Memory} {d : String}
    (h : findFirst cs d = none) (cs2 : List Memory) :
    findFirst (cs ++ cs2) d = findFirst cs2 d := by
  induction cs with
  | nil => rfl
  | cons x cs ih =>
    rw [findFirst] at h
    by_cases hx : x.description = d
    · rw [if_pos hx] at h
      cases h
    · rw [if_neg hx] at h
      rw [List.cons_append, findFirst, if_neg hx]
      exact ih h

theorem findFirst_none_desc {cs : List Memory} {d : String}
    (h : findFirst cs d = none) : ∀ c ∈ cs, c.description ≠ d := by
  intro c hc
  induction cs with
  | nil => cases hc
  | cons x cs ih =>
    rw [findFirst] at h
    by_cases hx : x.description = d
    · rw [if_pos hx] at h
      cases h
    · rw [if_neg hx] at h
      rcases List.mem_cons.mp hc with h1 | h1
      · subst h1
        exact hx
      · exact ih h h1

theorem any_eq_false_of {cs : List Memory} {p : Memory → Bool}
    (h : ∀ s ∈ cs, p s = false) : cs.any p = false := by
  cases ha : cs.any p with
  | false => rfl
  | true =>
    rcases List.any_eq_true.mp ha with ⟨s, hs, hps⟩
    rw [h s hs] at hps
    cases hps

theorem memStr_of_mem {cs : List Memory} {s : Memory} (hs : s ∈ cs) :
    memStr (cs.map Memory.description) s.description = true := by
  induction cs with
  | nil => cases hs
  | cons x cs ih =>
    rw [List.map_cons, memStr, Bool.or_eq_true]
    rcases List.mem_cons.mp hs with h1 | h1
    · subst h1
      exact Or.inl (beq_self_eq_true _)
    · exact Or.inr (ih h1)

theorem nodup_desc_unique {cs : List Memory} (h : keysNodupL cs = true) {a b : Memory}
    (ha : a ∈ cs) (hb : b ∈ cs) (hd : a.description = b.description) : a = b := by
  induction cs with
  | nil => cases ha
  | cons x cs ih =>
    rw [keysNodupL_cons, Bool.and_eq_true] at h
    rcases List.mem_cons.mp ha with h1 | h1 <;> rcases List.mem_cons.mp hb with h2 | h2
    · rw [h1, h2]
    · subst h1
      exfalso
      have := memStr_of_mem h2
      rw [← hd, bool_not_true.mp h.1] at this
      cases this
    · subst h2
      exfalso
      have := memStr_of_mem h1
      rw [hd, bool_not_true.mp h.1] at this
      cases this
    · exact ih h.2 h1 h2

@[simp] theorem update_access_id (now : Nat) (m : Memory) :
    (m.update_access now).id = m.id := rfl

@[simp] theorem update_access_content (now : Nat) (m : Memory) :
    (m.update_access now).content = m.content := rfl

@[simp] theorem update_access_tags (now : Nat) (m : Memory) :
    (m.update_access now).tags = m.tags := rfl

@[simp] theorem update_access_author (now : Nat) (m : Memory) :
    (m.update_access now).author = m.author := rfl

@[simp] theorem update_access_created_at (now : Nat) (m : Memory) :
    (m.update_access now).created_at = m.created_at := rfl

@[simp] theorem update_access_updated_at (now : Nat) (m : Memory) :
    (m.update_access now).updated_at = m.updated_at := rfl

@[simp] theorem update_access_access_count (now : Nat) (m : Memory) :
    (m.update_access now).access_count = m.access_count + 1 := rfl

@[simp] theorem update_access_last_accessed (now : Nat) (m : Memory) :
    (m.update_access now).last_accessed = now := rfl

@[simp] theorem update_access_data (now : Nat) (m : Memory) :
    (m.update_access now).data
      = { m.data with access_count := m.data.access_count + 1, last_accessed := now } := rfl

@[simp] theorem applyEdit_updated_at (d c : Option String) (t : Option (List String))
    (now : Nat) (m : Memory) : (applyEdit d c t now m).updated_at = some now := by
  cases d <;> cases c <;> cases t <;> rfl

@[simp] theorem applyEdit_id (d c : Option String) (t : Option (List String))
    (now : Nat) (m : Memory) : (applyEdit d c t now m).id = m.id := by
  cases d <;> cases c <;> cases t <;> rfl

@[simp] theorem applyEdit_content_none (d : Option String) (t : Option (List String))
    (now : Nat) (m : Memory) : (applyEdit d none t now m).content = m.content := by
  cases d <;> cases t <;> rfl

@[simp] theorem applyEdit_content_some (d : Option String) (v : String)
    (t : Option (List String)) (now : Nat) (m : Memory) :
    (applyEdit d (some v) t now m).content = some v := by
  cases d <;> cases t <;> rfl

@[simp] theorem applyEdit_tags_none (d c : Option String) (now : Nat) (m : Memory) :
    (applyEdit d c none now m).tags = m.tags := by
  cases d <;> cases c <;> rfl

@[simp] theorem applyEdit_created_at (d c : Option String) (t : Option (List String))
    (now : Nat) (m : Memory) : (applyEdit d c t now m).created_at = m.created_at := by
  cases d <;> cases c <;> cases t <;> rfl

/-- C1: Sibling key uniqueness is an invariant of the store: starting from a
fresh root, after any sequence of add, read, edit and remove operations, no two
children of the same parent node share the same description key, at any depth
of the tree. -/
theorem c1_sibling_keys_invariant (id : String) (now : Nat) (ops : List StoreOp) :
    SiblingKeysUnique (applyOps (freshRoot id now) ops) :=
  ops_pres ops (freshRoot id now) (forestOk_freshRoot id now)

/-- C5: Root protection: an edit addressed at the empty position returns the
"Cannot edit root memory" error, a remove at the empty position returns the
"Cannot remove root memory" error, and in both cases the tree (hence every
field of the root node) is returned unchanged. -/
theorem c5_root_protected (root : Memory) (description content : Option String)
    (tags : Option (List String)) (now : Nat) :
    edit_memory root [] description content tags now = (.error .cannotEditRoot, root) ∧
    remove_memory root [] = (.error .cannotRemoveRoot, root) :=
  ⟨edit_memory_root description content tags now (navigate_nil root) (beqM_refl root),
   remove_memory_nil root⟩

/-- C2: If the position resolves to a parent that already has a child with the
given description key, `add_memory` returns the duplicate-key error and the
tree is unchanged: the result tree is exactly the input tree, so the parent
still has exactly the children it had before the call. -/
theorem c2_add_duplicate_rejected (root parent c : Memory) (position : List String)
    (key : String) (content : Option String) (tags : List String) (author id : String)
    (now : Nat)
    (h1 : navigate root position = some parent)
    (h2 : parent.find_child key = some c) :
    add_memory root position key content tags author id now
      = (.error (.duplicateAtPosition key), root) :=
  add_memory_dup key content tags author id now h1 h2

/-- Witness for C2 at a concrete store: the root already has a child "a", so a
second add of "a" at the root fails and leaves the tree untouched. -/
theorem c2_add_duplicate_rejected_witness :
    navigate sampleRoot [] = some sampleRoot ∧
    sampleRoot.find_child "a" = some childA ∧
    add_memory sampleRoot [] "a" none [] "u" "id-n" 9
      = (.error (.duplicateAtPosition "a"), sampleRoot) :=
  ⟨rfl, rfl,
   c2_add_duplicate_rejected sampleRoot sampleRoot childA [] "a" none [] "u" "id-n" 9 rfl rfl⟩

/-- C9: a freshly created node (as constructed by `add_memory`, and the fresh
root) has `last_accessed` equal to `created_at` (both the creation instant),
`access_count` 0, `updated_at` unset and no children; and a successful add
appends exactly such a node, which afterwards resolves under
`position ++ [key]`. -/
theorem c9_fresh_node (id description : String) (content : Option String)
    (tags : List String) (author : String) (now : Nat) :
    (Memory.new id description content tags author now).last_accessed
      = (Memory.new id description content tags author now).created_at ∧
    (Memory.new id description content tags author now).created_at = now ∧
    (Memory.new id description content tags author now).access_count = 0 ∧
    (Memory.new id description content tags author now).children = [] ∧
    (Memory.new id description content tags author now).updated_at = none ∧
    (freshRoot id now).last_accessed = (freshRoot id now).created_at ∧
    (freshRoot id now).access_count = 0 ∧
    (freshRoot id now).children = [] ∧
    (∀ (root parent : Memory) (position : List String),
      navigate root position = some parent →
      parent.find_child description = none →
      navigate (add_memory root position description content tags author id now).2
          (position ++ [description])
        = some (Memory.new id description content tags author now)) := by
  refine ⟨rfl, rfl, rfl, rfl, rfl, rfl, rfl, rfl, ?_⟩
  intro root parent position h1 h2
  rw [add_memory_ok description content tags author id now h1 h2]
  rw [navigate_append]
  have happ := navigate_updateAt_append position [] root
    (fun p => p.setChildren (p.children ++ [Memory.new id description content tags author now]))
    (fun _ x => Memory.description_setChildren x _)
  rw [List.append_nil] at happ
  rw [happ, h1]
  show navigate
      (parent.setChildren (parent.children ++ [Memory.new id description content tags author now]))
      [description] = _
  rw [navigate, Memory.children_setChildren,
    findFirst_append_right (show findFirst parent.children description = none from h2),
    findFirst, if_pos (show (Memory.new id description content tags author now).description
      = description from rfl)]
  rfl

/-- Witness for C9: adding "c" under the resolvable position ["a"] of the
sample tree makes the fresh node resolve at ["a", "c"]. -/
theorem c9_fresh_node_witness :
    navigate sampleRoot ["a"] = some childA ∧
    childA.find_child "c" = none ∧
    navigate (add_memory sampleRoot ["a"] "c" none [] "u" "id-c" 7).2 (["a"] ++ ["c"])
      = some (Memory.new "id-c" "c" none [] "u" 7) :=
  ⟨rfl, rfl,
   (c9_fresh_node "id-c" "c" none [] "u" 7).2.2.2.2.2.2.2.2 sampleRoot childA ["a"] rfl rfl⟩

/-- C4: a successful read returns the node's record with `access_count`
incremented by exactly one and `last_accessed` set to now; the resulting tree
is the input tree with exactly that node's two access fields changed: the
node's other data fields and its children are untouched, every position that
is not a prefix of the read position resolves exactly as before, and every
proper prefix (ancestor) resolves to a node with unchanged data fields. -/
theorem c4_read_frame (root memory : Memory) (position : List String) (now : Nat)
    (h : navigate root position = some memory) :
    read_memory root position now
      = (.ok { id := memory.id, description := memory.description,
               content := memory.content, tags := memory.tags, author := memory.author,
               created_at := memory.created_at, updated_at := memory.updated_at,
               access_count := memory.access_count + 1, last_accessed := now,
               has_children := decide (0 < memory.children.length) },
         updateAt root position (Memory.update_access now)) ∧
    navigate (read_memory root position now).2 position = some (memory.update_access now) ∧
    (memory.update_access now).data
      = { memory.data with access_count := memory.data.access_count + 1, last_accessed := now } ∧
    (memory.update_access now).children = memory.children ∧
    (∀ q, (¬ ∃ r, position = q ++ r) →
      navigate (read_memory root position now).2 q = navigate root q) ∧
    (∀ q r, r ≠ [] → position = q ++ r →
      (navigate (read_memory root position now).2 q).map Memory.data
        = (navigate root q).map Memory.data) := by
  have hres := read_memory_ok now h
  refine ⟨?_, ?_, rfl, rfl, ?_, ?_⟩
  · rw [hres]
    simp
  · rw [hres]
    show navigate (updateAt root position (Memory.update_access now)) position = _
    have happ := navigate_updateAt_append position [] root (Memory.update_access now)
      (fun _ x => update_access_description now x)
    rw [List.append_nil] at happ
    rw [happ, h]
    rfl
  · intro q hq
    rw [hres]
    show navigate (updateAt root position (Memory.update_access now)) q = navigate root q
    exact navigate_updateAt_off q position root (Memory.update_access now)
      (fun x => update_access_description now x) (fun x => update_access_children now x) hq
  · intro q r hr hpos
    rw [hres]
    show (navigate (updateAt root position (Memory.update_access now)) q).map Memory.data
      = (navigate root q).map Memory.data
    subst hpos
    have happ := navigate_updateAt_append q r root (Memory.update_access now)
      (fun hre => absurd hre hr)
    rw [happ]
    cases navigate root q with
    | none => rfl
    | some n =>
      simp only [Option.map_some']
      congr 1
      cases r with
      | nil => exact absurd rfl hr
      | cons a b => exact updateAt_data n a b _

/-- Witness for C4: reading ["a", "b"] in the sample tree returns the bumped
record, updates exactly that node, and leaves the unrelated position ["x"]
resolving as before. -/
theorem c4_read_frame_witness :
    navigate sampleRoot ["a", "b"] = some childB ∧
    read_memory sampleRoot ["a", "b"] 11
      = (.ok { id := "id-b", description := "b", content := some "cb", tags := [],
               author := "u", created_at := 2, updated_at := none, access_count := 1,
               last_accessed := 11, has_children := false },
         updateAt sampleRoot ["a", "b"] (Memory.update_access 11)) ∧
    navigate (read_memory sampleRoot ["a", "b"] 11).2 ["a", "b"]
      = some (childB.update_access 11) ∧
    navigate (read_memory sampleRoot ["a", "b"] 11).2 ["x"] = navigate sampleRoot ["x"] := by
  refine ⟨rfl, ?_, ?_, ?_⟩
  · exact (c4_read_frame sampleRoot childB ["a", "b"] 11 rfl).1
  · exact (c4_read_frame sampleRoot childB ["a", "b"] 11 rfl).2.1
  · refine (c4_read_frame sampleRoot childB ["a", "b"] 11 rfl).2.2.2.2.1 ["x"] ?_
    rintro ⟨r, hr⟩
    rw [List.singleton_append] at hr
    injection hr with h1 h2
    exact absurd h1 (by decide)

theorem sampleRoot_sku : SiblingKeysUnique sampleRoot := by
  simp [SiblingKeysUnique, forestOk, keysNodupL, dupFree, memStr, sampleRoot, childA, childB,
    freshRoot, Memory.new]

/-- `remove_memory` at `parentPos ++ [target]` when the parent resolves and has
a matching child. -/
theorem remove_memory_concat {root parent removed : Memory} (parentPos : List String)
    (target : String)
    (h1 : navigate root parentPos = some parent)
    (h2 : findFirst parent.children target = some removed) :
    remove_memory root (parentPos ++ [target])
      = (.ok { removed := removed.description,
               children_removed := count_all_children removed },
         updateAt root parentPos (fun p => p.setChildren (removeFirst p.children target))) := by
  have hne : (parentPos ++ [target]).isEmpty = false := by
    cases parentPos <;> rfl
  have hdrop : (parentPos ++ [target]).dropLast = parentPos := List.dropLast_concat
  have hlast : (parentPos ++ [target]).getLastD "" = target := by
    rw [List.getLastD_eq_getLast?, List.getLast?_concat]
    rfl
  have h1b : navigate root (parentPos ++ [target]).dropLast = some parent := by
    rw [hdrop]
    exact h1
  have h2b : findFirst parent.children ((parentPos ++ [target]).getLastD "") = some removed := by
    rw [hlast]
    exact h2
  rw [remove_memory_ok hne h1b h2b, hdrop, hlast]

theorem keysNodupL_of_navigate {root parent : Memory} {pos : List String}
    (hsku : SiblingKeysUnique root) (h : navigate root pos = some parent) :
    keysNodupL parent.children = true := by
  have hp := forestOk_navigate hsku h
  cases parent with
  | mk pd pcs =>
    rw [forestOk_singleton, Bool.and_eq_true] at hp
    exact hp.1

/-- C3: removing a resolvable non-root node detaches it from its parent's child
list and returns its key together with its total descendant count (computed on
the subtree before removal); afterwards the position no longer resolves and
`list_children` on the former parent no longer lists that key. -/
theorem c3_remove_detaches (root parent m : Memory) (parentPos : List String)
    (target : String)
    (hsku : SiblingKeysUnique root)
    (h1 : navigate root parentPos = some parent)
    (h2 : parent.find_child target = some m) :
    remove_memory root (parentPos ++ [target])
      = (.ok { removed := m.description, children_removed := count_all_children m },
         updateAt root parentPos (fun p => p.setChildren (removeFirst p.children target))) ∧
    m.description = target ∧
    navigate (remove_memory root (parentPos ++ [target])).2 parentPos
      = some (parent.setChildren (removeFirst parent.children target)) ∧
    navigate (remove_memory root (parentPos ++ [target])).2 (parentPos ++ [target]) = none ∧
    list_children (remove_memory root (parentPos ++ [target])).2 parentPos
      = .ok { position := parentPos,
              children := (removeFirst parent.children target).map (fun c =>
                { description := c.description, content := c.content,
                  children_count := c.children.length, tags := c.tags }) } ∧
    (∀ entry ∈ (removeFirst parent.children target).map (fun c =>
        ({ description := c.description, content := c.content,
           children_count := c.children.length, tags := c.tags } : ChildEntry)),
      entry.description ≠ target) := by
  have hres := remove_memory_concat parentPos target h1 h2
  have hknd : keysNodupL parent.children = true := keysNodupL_of_navigate hsku h1
  have hnavP : navigate (remove_memory root (parentPos ++ [target])).2 parentPos
      = some (parent.setChildren (removeFirst parent.children target)) := by
    rw [hres]
    show navigate
      (updateAt root parentPos (fun p => p.setChildren (removeFirst p.children target)))
      parentPos = _
    have happ := navigate_updateAt_append parentPos [] root
      (fun p => p.setChildren (removeFirst p.children target))
      (fun _ x => Memory.description_setChildren x _)
    rw [List.append_nil] at happ
    rw [happ, h1]
    rfl
  refine ⟨hres, findFirst_desc h2, hnavP, ?_, ?_, ?_⟩
  · rw [navigate_append, hnavP]
    show navigate (parent.setChildren (removeFirst parent.children target)) [target] = none
    rw [navigate, Memory.children_setChildren, findFirst_removeFirst hknd]
  · rw [list_children_ok hnavP, Memory.children_setChildren]
  · intro entry hentry
    rcases List.mem_map.mp hentry with ⟨c, hc, hce⟩
    have hcd : c.description ≠ target :=
      findFirst_none_desc (findFirst_removeFirst hknd) c hc
    rw [← hce]
    exact hcd

/-- Witness for C3: removing "a" (which has 1 descendant) from the sample tree
reports key "a" and `children_removed = 1`, and ["a"] no longer resolves. -/
theorem c3_remove_detaches_witness :
    SiblingKeysUnique sampleRoot ∧
    navigate sampleRoot [] = some sampleRoot ∧
    sampleRoot.find_child "a" = some childA ∧
    count_all_children childA = 1 ∧
    remove_memory sampleRoot ([] ++ ["a"])
      = (.ok { removed := "a", children_removed := 1 },
         updateAt sampleRoot [] (fun p => p.setChildren (removeFirst p.children "a"))) ∧
    navigate (remove_memory sampleRoot ([] ++ ["a"])).2 ([] ++ ["a"]) = none := by
  have hcount : count_all_children childA = 1 := by
    simp [count_all_children, countForest, childA, childB, Memory.new]
  have hc := c3_remove_detaches sampleRoot sampleRoot childA [] "a" sampleRoot_sku rfl rfl
  refine ⟨sampleRoot_sku, rfl, rfl, hcount, ?_, hc.2.2.2.1⟩
  have h5 := hc.1
  rw [hcount] at h5
  exact h5

/-- C6: edit-rename conflict detection excludes the edited node itself: with
the node resolved as the first `e`-child of the resolved parent, the rename to
`dNew` errors with "already exists at this level" exactly when some sibling
other than the node (pydantic structural inequality) already holds `dNew`; in
particular renaming a node to its own current key succeeds and returns that
same key. -/
theorem c6_rename_excludes_self (root parent memory : Memory) (parentPos : List String)
    (e dNew : String) (content : Option String) (tags : Option (List String)) (now : Nat)
    (hsku : SiblingKeysUnique root)
    (h1 : navigate root parentPos = some parent)
    (h2 : parent.find_child e = some memory) :
    ((edit_memory root (parentPos ++ [e]) (some dNew) content tags now).1
        = .error (.duplicateAtLevel dNew)
      ↔ ∃ s ∈ parent.children, s ≠ memory ∧ s.description = dNew) ∧
    edit_memory root (parentPos ++ [e]) (some memory.description) content tags now
      = (.ok { id := memory.id, description := memory.description, updated_at := now },
         updateAt root (parentPos ++ [e])
           (applyEdit (some memory.description) content tags now)) := by
  have hnav : navigate root (parentPos ++ [e]) = some memory := by
    rw [navigate_append, h1]
    show navigate parent [e] = some memory
    rw [navigate, show findFirst parent.children e = some memory from h2]
    rfl
  have hne : memory ≠ root := navigate_ne_of_ne_nil (by cases parentPos <;> simp) hnav
  have hbeq : beqM memory root = false := (beqM_false_iff _ _).mpr hne
  have hknd : keysNodupL parent.children = true := keysNodupL_of_navigate hsku h1
  have hmem : memory ∈ parent.children := findFirst_mem h2
  constructor
  · constructor
    · intro hres
      cases hconf : renameConflict root memory (parentPos ++ [e]) dNew with
      | true =>
        rw [renameConflict, List.dropLast_concat, h1] at hconf
        change parent.children.any
          (fun s => !beqM s memory && (s.description == dNew)) = true at hconf
        rcases List.any_eq_true.mp hconf with ⟨s, hs, hps⟩
        rw [Bool.and_eq_true] at hps
        exact ⟨s, hs, (beqM_false_iff s memory).mp (bool_not_true.mp hps.1),
          eq_of_beq hps.2⟩
      | false =>
        rw [edit_memory_rename_ok content tags now hnav hbeq hconf] at hres
        simp at hres
    · rintro ⟨s, hs, hsm, hsd⟩
      have hconf : renameConflict root memory (parentPos ++ [e]) dNew = true := by
        rw [renameConflict, List.dropLast_concat, h1]
        change parent.children.any (fun s => !beqM s memory && (s.description == dNew)) = true
        refine List.any_eq_true.mpr ⟨s, hs, ?_⟩
        rw [Bool.and_eq_true]
        refine ⟨bool_not_true.mpr ((beqM_false_iff s memory).mpr hsm), ?_⟩
        rw [hsd]
        exact beq_self_eq_true dNew
      rw [edit_memory_conflict content tags now hnav hbeq hconf]
  · have hconf : renameConflict root memory (parentPos ++ [e]) memory.description = false := by
      rw [renameConflict, List.dropLast_concat, h1]
      change parent.children.any
        (fun s => !beqM s memory && (s.description == memory.description)) = false
      apply any_eq_false_of
      intro s hs
      cases hb : beqM s memory with
      | true => rw [Bool.not_true, Bool.false_and]
      | false =>
        have hsm : s ≠ memory := (beqM_false_iff s memory).mp hb
        have hdd : (s.description == memory.description) = false := by
          rw [beq_eq_false_iff_ne]
          intro hd
          exact hsm (nodup_desc_unique hknd hs hmem hd)
        rw [hdd, Bool.and_false]
    exact edit_memory_rename_ok content tags now hnav hbeq hconf

/-- Witness for C6: in the sample tree, renaming "a" to its own key succeeds
and returns key "a". -/
theorem c6_rename_excludes_self_witness :
    SiblingKeysUnique sampleRoot ∧
    navigate sampleRoot [] = some sampleRoot ∧
    sampleRoot.find_child "a" = some childA ∧
    edit_memory sampleRoot ([] ++ ["a"]) (some childA.description) none none 13
      = (.ok { id := childA.id, description := childA.description, updated_at := 13 },
         updateAt sampleRoot ([] ++ ["a"])
           (applyEdit (some childA.description) none none 13)) :=
  ⟨sampleRoot_sku, rfl, rfl,
   (c6_rename_excludes_self sampleRoot sampleRoot childA [] "a" "zz" none none 13
     sampleRoot_sku rfl rfl).2⟩

theorem contentKeptF_refl : ∀ cs : List Memory, contentKeptF cs cs := by
  intro cs
  induction cs using forest_ind with
  | h0 => simp [contentKeptF]
  | h1 d gcs cs ih1 ih2 =>
    simp only [contentKeptF]
    exact ⟨fun h => h, ih1, ih2⟩

theorem contentKeptF_trans : ∀ cs1 cs2 cs3 : List Memory,
    contentKeptF cs1 cs2 → contentKeptF cs2 cs3 → contentKeptF cs1 cs3
  | [], [], _, _, h23 => h23
  | .mk d1 g1 :: c1, .mk d2 g2 :: c2, .mk d3 g3 :: c3, h12, h23 => by
    simp only [contentKeptF] at h12 h23 ⊢
    exact ⟨fun h => h23.1 (h12.1 h), contentKeptF_trans g1 g2 g3 h12.2.1 h23.2.1,
      contentKeptF_trans c1 c2 c3 h12.2.2 h23.2.2⟩
  | [], .mk _ _ :: _, _, h12, _ => by simp only [contentKeptF] at h12
  | .mk _ _ :: _, [], _, h12, _ => by simp only [contentKeptF] at h12
  | .mk _ _ :: _, .mk _ _ :: _, [], _, h23 => by simp only [contentKeptF] at h23

theorem contentKeptF_cons {a b : Memory} {l l2 : List Memory} :
    contentKeptF (a :: l) (b :: l2) ↔ (contentKeptF [a] [b] ∧ contentKeptF l l2) := by
  cases a with
  | mk da ga =>
    cases b with
    | mk db gb =>
      simp only [contentKeptF]
      tauto

theorem contentKeptF_updateFirst (cs : List Memory) (d : String) (g : Memory → Memory)
    (hg : ∀ c, contentKeptF [c] [g c]) : contentKeptF cs (updateFirst cs d g) := by
  induction cs with
  | nil => simp [updateFirst, contentKeptF]
  | cons x cs ih =>
    rw [updateFirst]
    by_cases hx : x.description = d
    · rw [if_pos hx, contentKeptF_cons]
      exact ⟨hg x, contentKeptF_refl cs⟩
    · rw [if_neg hx, contentKeptF_cons]
      exact ⟨contentKeptF_refl [x], ih⟩

theorem contentKept_updateAt (pos : List String) :
    ∀ (root : Memory) (f : Memory → Memory),
    (∀ x, (f x).children = x.children) →
    (∀ x, x.content.isSome = true → (f x).content.isSome = true) →
    contentKeptF [root] [updateAt root pos f] := by
  induction pos with
  | nil =>
    intro root f hc hcont
    rw [updateAt_nil]
    cases root with
    | mk d cs =>
      cases hfr : f (Memory.mk d cs) with
      | mk d2 cs2 =>
        have hcc : cs2 = cs := by
          have h2 := hc (Memory.mk d cs)
          rw [hfr] at h2
          simpa using h2
        rw [hcc]
        simp only [contentKeptF]
        refine ⟨?_, contentKeptF_refl cs, trivial⟩
        intro hs
        have h3 := hcont (Memory.mk d cs) (by simpa [Memory.content] using hs)
        rw [hfr] at h3
        simpa [Memory.content] using h3
  | cons e rest ih =>
    intro root f hc hcont
    cases root with
    | mk d cs =>
      rw [updateAt_cons, Memory.children_mk, Memory.setChildren_mk]
      simp only [contentKeptF]
      exact ⟨fun h => h, contentKeptF_updateFirst cs e _ (fun c => ih c f hc hcont), trivial⟩

theorem contentKept_edit (root : Memory) (position : List String)
    (d c : Option String) (t : Option (List String)) (now : Nat) :
    ContentKept root (edit_memory root position d c t now).2 := by
  cases hnav : navigate root position with
  | none =>
    rw [edit_memory_none _ _ _ _ _ _ hnav]
    exact contentKeptF_refl [root]
  | some memory =>
    cases hbeq : beqM memory root with
    | true =>
      rw [edit_memory_root d c t now hnav hbeq]
      exact contentKeptF_refl [root]
    | false =>
      have key : contentKeptF [root] [updateAt root position (applyEdit d c t now)] := by
        apply contentKept_updateAt
        · exact fun x => applyEdit_children d c t now x
        · intro x hx
          cases c with
          | none => rw [applyEdit_content_none]; exact hx
          | some v => rw [applyEdit_content_some]; rfl
      cases d with
      | none =>
        rw [edit_memory_nokey_ok c t now hnav hbeq]
        exact key
      | some dN =>
        cases hconf : renameConflict root memory position dN with
        | true =>
          rw [edit_memory_conflict c t now hnav hbeq hconf]
          exact contentKeptF_refl [root]
        | false =>
          rw [edit_memory_rename_ok c t now hnav hbeq hconf]
          exact key

theorem contentKept_edits : ∀ (calls : List EditCall) (root : Memory),
    ContentKept root (applyEdits root calls) := by
  intro calls
  induction calls with
  | nil => intro root; exact contentKeptF_refl [root]
  | cons c calls ih =>
    intro root
    rw [applyEdits, List.foldl_cons]
    exact contentKeptF_trans _ _ _
      (contentKept_edit root c.position c.description c.content c.tags c.now)
      (ih ((edit_memory root c.position c.description c.content c.tags c.now).2))

/-- C10: an absent (`none`) argument of edit is the "not provided" sentinel:
an edit with no provided fields leaves the node's description, content and
tags unchanged yet still stamps `updated_at := now`; `content = none` never
overwrites, and over any sequence of edit calls no node's content ever goes
from a set value back to the unset state. -/
theorem c10_edit_none_sentinel :
    (∀ (root : Memory) (calls : List EditCall), ContentKept root (applyEdits root calls)) ∧
    (∀ (root memory : Memory) (position : List String) (now : Nat),
      position ≠ [] →
      navigate root position = some memory →
      edit_memory root position none none none now
        = (.ok { id := memory.id, description := memory.description, updated_at := now },
           updateAt root position (applyEdit none none none now)) ∧
      navigate (edit_memory root position none none none now).2 position
        = some (applyEdit none none none now memory)) ∧
    (∀ (d c : Option String) (t : Option (List String)) (now : Nat) (x : Memory),
      (applyEdit none c t now x).description = x.description ∧
      (applyEdit d none t now x).content = x.content ∧
      (applyEdit d c none now x).tags = x.tags ∧
      (applyEdit d c t now x).children = x.children ∧
      (applyEdit d c t now x).updated_at = some now) := by
  refine ⟨fun root calls => contentKept_edits calls root, ?_, ?_⟩
  · intro root memory position now hpos hnav
    have hbeq : beqM memory root = false :=
      (beqM_false_iff _ _).mpr (navigate_ne_of_ne_nil hpos hnav)
    have hres := edit_memory_nokey_ok none none now hnav hbeq
    refine ⟨hres, ?_⟩
    rw [hres]
    show navigate (updateAt root position (applyEdit none none none now)) position = _
    have happ := navigate_updateAt_append position [] root (applyEdit none none none now)
      (fun _ x => applyEdit_none_description none none now x)
    rw [List.append_nil] at happ
    rw [happ, hnav]
    rfl
  · intro d c t now x
    exact ⟨applyEdit_none_description c t now x, applyEdit_content_none d t now x,
      applyEdit_tags_none d c now x, applyEdit_children d c t now x,
      applyEdit_updated_at d c t now x⟩

/-- Witness for C10: an all-`none` edit of ["a"] in the sample tree succeeds
with the old key and a fresh `updated_at`; a short edit sequence keeps set
contents set. -/
theorem c10_edit_none_sentinel_witness :
    (["a"] : List String) ≠ [] ∧
    navigate sampleRoot ["a"] = some childA ∧
    edit_memory sampleRoot ["a"] none none none 21
      = (.ok { id := childA.id, description := childA.description, updated_at := 21 },
         updateAt sampleRoot ["a"] (applyEdit none none none 21)) ∧
    ContentKept sampleRoot
      (applyEdits sampleRoot [{ position := ["a"], description := none, content := none,
                                tags := none, now := 30 }]) := by
  refine ⟨by simp, rfl, ?_, ?_⟩
  · exact (c10_edit_none_sentinel.2.1 sampleRoot childA ["a"] 21 (by simp) rfl).1
  · exact c10_edit_none_sentinel.1 sampleRoot
      [{ position := ["a"], description := none, content := none, tags := none, now := 30 }]

theorem ofDigits_natDigits : ∀ t : Nat, ofDigits (natDigits t) = t := by
  intro t
  induction t using Nat.strong_induction_on with
  | _ t ih =>
    rw [natDigits]
    by_cases h : t = 0
    · rw [dif_pos h, ofDigits]
      omega
    · rw [dif_neg h, ofDigits, ih (t / 10) (Nat.div_lt_self (Nat.pos_of_ne_zero h) (by omega))]
      omega

theorem fromisoformat_isoformat (t : Nat) : fromisoformat (isoformat t) = t := by
  rw [isoformat]
  by_cases h : t = 0
  · rw [if_pos h, h]
    rfl
  · rw [if_neg h]
    exact ofDigits_natDigits t

theorem isoformat_ne_nil (t : Nat) : isoformat t ≠ [] := by
  rw [isoformat]
  by_cases h : t = 0
  · rw [if_pos h]
    simp
  · rw [if_neg h, natDigits, dif_neg h]
    simp

theorem isoformat_isEmpty (t : Nat) : (isoformat t).isEmpty = false := by
  cases hi : isoformat t with
  | nil => exact absurd hi (isoformat_ne_nil t)
  | cons a l => rfl

theorem uaIn_uaOut (u : Option Nat) : uaIn (uaOut u) = some u := by
  cases u with
  | none => rfl
  | some t => simp [uaOut, uaIn, isoformat_isEmpty, fromisoformat_isoformat]

theorem fromDictL_toDictL : ∀ cs : List Memory, fromDictL (toDictL cs) = some cs := by
  intro cs
  induction cs using forest_ind with
  | h0 => simp [toDictL, fromDictL]
  | h1 d gcs cs ih1 ih2 =>
    simp only [toDictL, fromDictL, Memory.to_dict, MemoryDict.from_dict, uaIn_uaOut,
      fromisoformat_isoformat, ih1, ih2]

/-- C7: serialization round-trip: reconstructing the persisted representation
of any node yields the node back exactly — every attribute, the child order at
every level, and the textual timestamps all survive; in particular the
timestamp encoding parses back to the exact instant. -/
theorem c7_roundtrip (m : Memory) :
    MemoryDict.from_dict (Memory.to_dict m) = some m ∧
    (∀ t : Nat, fromisoformat (isoformat t) = t) := by
  refine ⟨?_, fun t => fromisoformat_isoformat t⟩
  cases m with
  | mk d cs =>
    simp only [Memory.to_dict, MemoryDict.from_dict, uaIn_uaOut, fromisoformat_isoformat,
      fromDictL_toDictL]

/-- C8 as stated is false: for a concrete never-edited node, the persisted
record's `updated_at` entry is an explicit null, not absent. -/
theorem c8_counterexample :
    neverEdited.updated_at = none ∧
    (Memory.to_dict neverEdited).updated_at = JField.null ∧
    (Memory.to_dict neverEdited).updated_at ≠ JField.absent := by
  refine ⟨rfl, ?_, ?_⟩
  · simp [Memory.to_dict, toDictL, neverEdited, Memory.new, uaOut, MemoryDict.updated_at]
  · simp [Memory.to_dict, toDictL, neverEdited, Memory.new, uaOut, MemoryDict.updated_at]

/-- C8 amended: in the persisted record, `updated_at` is an ISO string when
the node has been edited and an explicit null when it never was; the key is
always present (never absent). -/
theorem c8_updated_at_null_not_absent (m : Memory) :
    (Memory.to_dict m).updated_at
      = (match m.updated_at with
         | none => JField.null
         | some t => JField.val (isoformat t)) := by
  cases m with
  | mk d cs =>
    rw [Memory.to_dict]
    show uaOut d.updated_at
      = (match d.updated_at with
         | none => JField.null
         | some t => JField.val (isoformat t))
    cases d.updated_at with
    | none => rfl
    | some t => rfl
